import Mathlib

/-!
Verification of the cookie-jar and header-composition core of
`cronet_client.py` (classes `AsyncCronetClient` / `CronetClient`; the two
classes share identical cookie/header logic).

Python dictionaries are modelled as insertion-ordered association lists:
`dInsert` overwrites the value of an existing key in place (keeping its
position) and appends a fresh key at the tail, exactly as CPython dicts
behave.  Python strings are modelled as `String` with primitives defined
over `String.data`, matching `str.lower` / `str.strip` / `str.split` /
`in` / `startswith` / `endswith` on the ASCII inputs this client handles.
-/

namespace Cronet

/-! ### Python string primitives -/

/-- `s.lower()` (ASCII). -/
def pyLower (s : String) : String := String.mk (s.data.map Char.toLower)

/-- `c in s` for a single character. -/
def pyContains (s : String) (c : Char) : Bool := s.data.contains c

/-- `s.startswith(t)`. -/
def pyStartsWith (s t : String) : Bool := t.data.isPrefixOf s.data

/-- `s.endswith(t)`. -/
def pyEndsWith (s t : String) : Bool := t.data.isSuffixOf s.data

/-- `s.strip()` (whitespace). -/
def pyStrip (s : String) : String :=
  String.mk (((s.data.dropWhile Char.isWhitespace).reverse.dropWhile Char.isWhitespace).reverse)

/-- `s.split(sep)` for a one-character separator, on character lists. -/
def splitChars (sep : Char) : List Char → List (List Char)
  | [] => [[]]
  | c :: cs =>
    if c = sep then [] :: splitChars sep cs
    else
      match splitChars sep cs with
      | [] => [[c]]
      | h :: t => (c :: h) :: t

/-- `s.split(sep)` for a one-character separator. -/
def pySplit (s : String) (sep : Char) : List String := (splitChars sep s.data).map String.mk

/-- `s.split(c, 1)` as the pair (before first `c`, after first `c`);
the second component is `""` when `c` does not occur. -/
def pySplitFirst (s : String) (c : Char) : String × String :=
  (String.mk (s.data.takeWhile (fun x => x != c)),
   String.mk ((s.data.dropWhile (fun x => x != c)).drop 1))

/-! ### Python dictionaries as insertion-ordered association lists -/

/-- `d.get(k)`. -/
def dFind {κ α : Type} [BEq κ] : List (κ × α) → κ → Option α
  | [], _ => none
  | p :: ps, k => if p.1 == k then some p.2 else dFind ps k

/-- `d[k] = v`: overwrite in place if the key exists, else append. -/
def dInsert {κ α : Type} [BEq κ] : List (κ × α) → κ → α → List (κ × α)
  | [], k, v => [(k, v)]
  | p :: ps, k, v => if p.1 == k then (p.1, v) :: ps else p :: dInsert ps k v

/-- `d.update(u)`. -/
def dUpdate {κ α : Type} [BEq κ] (d u : List (κ × α)) : List (κ × α) :=
  u.foldl (fun acc p => dInsert acc p.1 p.2) d

/-! ### Data model -/

/-- One domain's cookies: `{cookie_name: cookie_value}`. -/
abbrev CookieMap := List (String × String)

/-- The session cookie store `self._cookies : {domain: {name: value}}`. -/
abbrev Store := List (String × CookieMap)

/-! ### Source embeddings -/

/-- The leading-dot removal inside `_parse_set_cookie`:
`if domain.startswith('.'): domain = domain[1:]`. -/
def stripLeadingDot (s : String) : String :=
  if pyStartsWith s "." then String.mk (s.data.drop 1) else s

/-- The `Domain` attribute scan of `_parse_set_cookie` over `parts[1:]`:
strip each part, take the first whose lower-casing starts with `domain=`,
and return `part.split('=', 1)[1].strip().lower()` with one leading dot
removed; `""` when no part matches. -/
def findDomainAttr : List String → String
  | [] => ""
  | p :: rest =>
    let q := pyStrip p
    if pyStartsWith (pyLower q) "domain=" then
      stripLeadingDot (pyLower (pyStrip (pySplitFirst q '=').2))
    else findDomainAttr rest

/-- `_parse_set_cookie` restricted to a single raw `Set-Cookie` value:
the list of `(name, value, domain)` triples it contributes. -/
def parseOneSetCookie (value : String) : List (String × String × String) :=
  if pyContains value '=' then
    let parts := pySplit value ';'
    let cookiePart := pyStrip (parts.headD "")
    if pyContains cookiePart '=' then
      let nv := pySplitFirst cookiePart '='
      [(pyStrip nv.1, pyStrip nv.2, findDomainAttr parts.tail)]
    else []
  else []

/-- `_parse_set_cookie(set_cookie_values)`. -/
def parseSetCookie (values : List String) : List (String × String × String) :=
  values.foldl (fun acc v => acc ++ parseOneSetCookie v) []

/-- `_domain_matches(cookie_domain, request_domain)`. -/
def domainMatches (cookieDomain requestDomain : String) : Bool :=
  if cookieDomain == "" then false
  else
    let rd := pyLower requestDomain
    let cd := pyLower cookieDomain
    if rd == cd then true
    else if pyEndsWith rd ("." ++ cd) then true
    else false

/-- The header-partition loop of `_prepare_headers` (step 1): first
component the `normal` bucket, second the `priority` bucket; entries
named `cookie` (case-insensitively) are skipped. -/
def headerStep (acc : List (String × String) × List (String × String))
    (p : String × String) : List (String × String) × List (String × String) :=
  let kLower := pyLower p.1
  if kLower == "cookie" then acc
  else if kLower == "priority" then (acc.1, acc.2 ++ [p])
  else (acc.1 ++ [p], acc.2)

def partitionHeaders (hs : List (String × String)) :
    List (String × String) × List (String × String) :=
  hs.foldl headerStep ([], [])

/-- The cookie-merging loop of `_prepare_headers` (step 2): fold the
store in iteration order, `update`-ing with every domain that equals or
domain-matches the request domain, then overlay the caller's cookies. -/
def mergedCookies (store : Store) (cookies : CookieMap) (domain : String) : CookieMap :=
  let base := store.foldl
    (fun acc e => if e.1 == domain || domainMatches e.1 domain then dUpdate acc e.2 else acc) []
  if cookies.isEmpty then base else dUpdate base cookies

/-- `"; ".join([f"{k}={v}" for k, v in merged_cookies.items()])`. -/
def cookieHeaderValue (mc : CookieMap) : String :=
  String.intercalate "; " (mc.map (fun p => p.1 ++ "=" ++ p.2))

/-- `_prepare_headers(headers, cookies, domain)` reading the given
store: `normal ++ [composed cookie]? ++ priority`. -/
def prepareHeaders (store : Store) (headersList : List (String × String))
    (cookies : CookieMap) (domain : String) : List (String × String) :=
  let buckets := partitionHeaders headersList
  let mc := mergedCookies store cookies domain
  (if mc.isEmpty then buckets.1 else buckets.1 ++ [("cookie", cookieHeaderValue mc)])
    ++ buckets.2

/-- The state-threaded form of `_prepare_headers`: the method reads
`self._cookies` but never assigns to it, so the embedded method returns
the store component unchanged next to its output. -/
def prepareHeadersSt (store : Store) (headersList : List (String × String))
    (cookies : CookieMap) (domain : String) : Store × List (String × String) :=
  (store, prepareHeaders store headersList cookies domain)

/-- The per-cookie body of `_update_cookies_from_response`: pick the
storage domain (declared domain if non-empty, else the request domain)
and write `self._cookies[store_domain][cookie_name] = cookie_value`. -/
def updateOne (store : Store) (requestDomain : String)
    (c : String × String × String) : Store :=
  let storeDomain := if c.2.2 == "" then requestDomain else c.2.2
  let cur := match dFind store storeDomain with
    | some m => m
    | none => []
  dInsert store storeDomain (dInsert cur c.1 c.2.1)

/-- `_update_cookies_from_response(headers, request_domain)`. -/
def updateCookiesFromResponse (store : Store) (headers : List (String × List String))
    (requestDomain : String) : Store :=
  headers.foldl
    (fun st h =>
      if pyLower h.1 == "set-cookie" then
        (parseSetCookie h.2).foldl (fun st2 c => updateOne st2 requestDomain c) st
      else st)
    store

/-- `get_cookies_for_domain(domain)` (value of the returned copy). -/
def getCookiesForDomain (store : Store) (domain : String) : CookieMap :=
  match dFind store (pyLower domain) with
  | some m => m
  | none => []

/-- The cookie-state transition and outbound headers of `request(...)`:
one-off cookies are persisted under the request domain, then headers are
composed, then the response's `Set-Cookie` values are ingested.  The
`domain` argument stands for `_extract_domain(url)`. -/
def requestStep (store : Store) (domain : String) (cookies : CookieMap)
    (headersList : List (String × String)) (respHeaders : List (String × List String)) :
    Store × List (String × String) :=
  let store1 := if cookies.isEmpty then store else
    let cur := match dFind store domain with
      | some m => m
      | none => []
    dInsert store domain (dUpdate cur cookies)
  let out := prepareHeaders store1 headersList cookies domain
  let store2 := updateCookiesFromResponse store1 respHeaders domain
  (store2, out)

/-- A well-formed store key as the spec's invariant describes it:
lower-cased, with no leading dot. -/
def goodKey (k : String) : Prop := pyLower k = k ∧ pyStartsWith k "." = false

/-- The spec's key invariant over the whole cookie store. -/
def storeKeysOk (store : Store) : Prop := ∀ k ∈ store.map Prod.fst, goodKey k

/-- A store is shaped like a Python dict of dicts: its domain keys are
distinct, and so are each inner map's cookie names. -/
def StoreWF (store : Store) : Prop :=
  (store.map Prod.fst).Nodup ∧ ∀ e ∈ store, (e.2.map Prod.fst).Nodup

/-! ### Heap model for dict aliasing (`cookies` property and
`get_cookies_for_domain`)

Python dicts are mutable objects; `get_cookies_for_domain` and the
`cookies` property return `.copy()`s precisely so that callers cannot
mutate the store through the returned values.  To state that, the store
is modelled with an explicit object heap: `entries` maps each domain to
the identifier of its dict object. -/

structure DictHeap where
  dicts : List (Nat × CookieMap)
  next : Nat

structure StoreH where
  heap : DictHeap
  entries : List (String × Nat)

/-- Identifiers registered anywhere are below the allocation counter. -/
def StoreH.WF (s : StoreH) : Prop :=
  (∀ p ∈ s.entries, p.2 < s.heap.next) ∧ ∀ q ∈ s.heap.dicts, q.1 < s.heap.next

/-- Dereference a dict identifier. -/
def heapRead (h : DictHeap) (i : Nat) : CookieMap := (dFind h.dicts i).getD []

/-- Allocate a fresh dict object holding `m` (a `.copy()` or a literal). -/
def heapAlloc (h : DictHeap) (m : CookieMap) : DictHeap × Nat :=
  ({ dicts := h.dicts ++ [(h.next, m)], next := h.next + 1 }, h.next)

/-- `get_cookies_for_domain(domain)`:
`self._cookies.get(domain.lower(), {}).copy()` — the returned dict is a
fresh allocation holding the found content (or empty). -/
def getCookiesForDomainH (s : StoreH) (domain : String) : StoreH × Nat :=
  let content := match dFind s.entries (pyLower domain) with
    | some i => heapRead s.heap i
    | none => []
  let a := heapAlloc s.heap content
  ({ heap := a.1, entries := s.entries }, a.2)

/-- One step of the `cookies` property's dict comprehension: copy the
dict of the current domain into a fresh allocation. -/
def allCopyStep (acc : StoreH × List (String × Nat)) (p : String × Nat) :
    StoreH × List (String × Nat) :=
  let a := heapAlloc acc.1.heap (heapRead acc.1.heap p.2)
  ({ heap := a.1, entries := acc.1.entries }, acc.2 ++ [(p.1, a.2)])

/-- The `cookies` property:
`{domain: cookies.copy() for domain, cookies in self._cookies.items()}` —
one fresh allocation per stored domain. -/
def cookiesAllH (s : StoreH) : StoreH × List (String × Nat) :=
  s.entries.foldl allCopyStep (s, [])

/-- A caller-side mutation `d[k] = v` performed on the dict object `i`. -/
def mutateDict (s : StoreH) (i : Nat) (k v : String) : StoreH :=
  { s with heap :=
      { s.heap with dicts := dInsert s.heap.dicts i (dInsert (heapRead s.heap i) k v) } }

/-- What the store observes: each domain with the contents of its dict. -/
def storeView (s : StoreH) : Store :=
  s.entries.map (fun p => (p.1, heapRead s.heap p.2))

/-- Predicate for the `normal` bucket of `_prepare_headers`. -/
def isNormalHeader (p : String × String) : Bool :=
  !(pyLower p.1 == "cookie") && !(pyLower p.1 == "priority")

/-- Predicate for the `priority` bucket of `_prepare_headers`. -/
def isPriorityHeader (p : String × String) : Bool := pyLower p.1 == "priority"

/-! ### Dictionary lemmas -/

section DictLemmas

variable {κ α : Type} [BEq κ] [LawfulBEq κ]

theorem dFind_dInsert_self (d : List (κ × α)) (k : κ) (v : α) :
    dFind (dInsert d k v) k = some v := by
  induction d with
  | nil => simp [dInsert, dFind]
  | cons p ps ih =>
    by_cases h : p.1 == k
    · simp [dInsert, dFind, h]
    · simp [dInsert, dFind, h, ih]

theorem dFind_dInsert_ne (d : List (κ × α)) (k k' : κ) (v : α) (h : k' ≠ k) :
    dFind (dInsert d k v) k' = dFind d k' := by
  have hkk : (k == k') = false := beq_eq_false_iff_ne.mpr (Ne.symm h)
  induction d with
  | nil => simp [dInsert, dFind, hkk]
  | cons p ps ih =>
    by_cases hp : p.1 == k
    · have hk : p.1 = k := by simpa using hp
      subst hk
      simp [dInsert, dFind, hkk]
    · simp [dInsert, dFind, hp, ih]

theorem dFind_eq_none_iff (d : List (κ × α)) (k : κ) :
    dFind d k = none ↔ k ∉ d.map Prod.fst := by
  induction d with
  | nil => simp [dFind]
  | cons p ps ih =>
    rw [dFind, List.map_cons, List.mem_cons]
    by_cases h : p.1 == k
    · have hk : p.1 = k := by simpa using h
      simp [h, hk]
    · have hk : ¬ p.1 = k := by simpa using h
      simp only [h, Bool.false_eq_true, if_false, ih]
      constructor
      · intro h1
        rintro (h2 | h2)
        · exact hk h2.symm
        · exact h1 h2
      · intro h1 h2
        exact h1 (Or.inr h2)

theorem mem_keys_dInsert (d : List (κ × α)) (k a : κ) (v : α) :
    a ∈ (dInsert d k v).map Prod.fst ↔ a ∈ d.map Prod.fst ∨ a = k := by
  induction d with
  | nil => simp [dInsert]
  | cons p ps ih =>
    by_cases h : p.1 == k
    · have hk : p.1 = k := by simpa using h
      simp only [dInsert, h, if_true, List.map_cons, List.mem_cons]
      constructor
      · rintro (h1 | h1)
        · exact Or.inl (Or.inl h1)
        · exact Or.inl (Or.inr h1)
      · rintro ((h1 | h1) | h1)
        · exact Or.inl h1
        · exact Or.inr h1
        · exact Or.inl (h1 ▸ hk.symm)
    · rw [dInsert, if_neg h]
      simp only [List.map_cons, List.mem_cons, ih]
      tauto

theorem nodup_keys_dInsert (d : List (κ × α)) (k : κ) (v : α)
    (h : (d.map Prod.fst).Nodup) : ((dInsert d k v).map Prod.fst).Nodup := by
  induction d with
  | nil => simp [dInsert]
  | cons p ps ih =>
    rw [List.map_cons, List.nodup_cons] at h
    by_cases hp : p.1 == k
    · rw [dInsert, if_pos hp, List.map_cons, List.nodup_cons]
      exact h
    · have hne : ¬ p.1 = k := by simpa using hp
      rw [dInsert, if_neg hp, List.map_cons, List.nodup_cons]
      refine ⟨?_, ih h.2⟩
      rw [mem_keys_dInsert]
      rintro (h1 | h1)
      · exact h.1 h1
      · exact hne h1

theorem dFind_dUpdate_of_none (d u : List (κ × α)) (k : κ) (h : dFind u k = none) :
    dFind (dUpdate d u) k = dFind d k := by
  induction u generalizing d with
  | nil => simp [dUpdate]
  | cons p ps ih =>
    by_cases hp : p.1 == k
    · simp [dFind, hp] at h
    · rw [dFind, if_neg (by simpa using hp)] at h
      rw [dUpdate, List.foldl_cons]
      have hih := ih (dInsert d p.1 p.2) h
      rw [dUpdate] at hih
      have hne : k ≠ p.1 := by
        intro e
        exact hp (by simp [e])
      rw [hih, dFind_dInsert_ne _ _ _ _ hne]

theorem dFind_dUpdate_of_some (d u : List (κ × α)) (k : κ) (v : α)
    (hn : (u.map Prod.fst).Nodup) (h : dFind u k = some v) :
    dFind (dUpdate d u) k = some v := by
  induction u generalizing d with
  | nil => simp [dFind] at h
  | cons p ps ih =>
    rw [List.map_cons, List.nodup_cons] at hn
    by_cases hp : p.1 == k
    · have hk : p.1 = k := by simpa using hp
      rw [dFind, if_pos hp] at h
      have hnone : dFind ps k = none := by
        rw [dFind_eq_none_iff]
        exact hk ▸ hn.1
      rw [dUpdate, List.foldl_cons]
      have := dFind_dUpdate_of_none (dInsert d p.1 p.2) ps k hnone
      rw [dUpdate] at this
      rw [this, hk, dFind_dInsert_self]
      simpa using h
    · rw [dFind, if_neg hp] at h
      rw [dUpdate, List.foldl_cons]
      have := ih (dInsert d p.1 p.2) hn.2 h
      rwa [dUpdate] at this

theorem mem_keys_dUpdate (d u : List (κ × α)) (a : κ) :
    a ∈ (dUpdate d u).map Prod.fst ↔ a ∈ d.map Prod.fst ∨ a ∈ u.map Prod.fst := by
  induction u generalizing d with
  | nil => simp [dUpdate]
  | cons p ps ih =>
    rw [dUpdate, List.foldl_cons]
    have := ih (dInsert d p.1 p.2)
    rw [dUpdate] at this
    rw [this, mem_keys_dInsert]
    simp only [List.map_cons, List.mem_cons]
    tauto

theorem nodup_keys_dUpdate (d u : List (κ × α)) (h : (d.map Prod.fst).Nodup) :
    ((dUpdate d u).map Prod.fst).Nodup := by
  induction u generalizing d with
  | nil => simpa [dUpdate]
  | cons p ps ih =>
    rw [dUpdate, List.foldl_cons]
    have := ih (dInsert d p.1 p.2) (nodup_keys_dInsert _ _ _ h)
    rwa [dUpdate] at this

theorem dFind_eq_of_mem_nodup (d : List (κ × α)) (k : κ) (v v' : α)
    (hn : (d.map Prod.fst).Nodup) (h : dFind d k = some v) (hm : (k, v') ∈ d) : v' = v := by
  induction d with
  | nil => simp at hm
  | cons p ps ih =>
    rw [List.map_cons, List.nodup_cons] at hn
    rcases List.mem_cons.mp hm with h1 | h1
    · have hk : p.1 = k := by rw [← h1]
      rw [dFind, if_pos (by simp [hk])] at h
      have hp2 : p.2 = v := by simpa using h
      rw [← h1] at hp2
      exact hp2
    · by_cases hp : p.1 == k
      · have hk : p.1 = k := by simpa using hp
        exact absurd (hk ▸ (List.mem_map.mpr ⟨(k, v'), h1, rfl⟩)) hn.1
      · rw [dFind, if_neg hp] at h
        exact ih hn.2 h h1

theorem dFind_append_ne (l1 l2 : List (κ × α)) (k : κ)
    (h : ∀ p ∈ l2, ¬ p.1 = k) :
    dFind (l1 ++ l2) k = dFind l1 k := by
  induction l1 with
  | nil =>
    simp only [List.nil_append, dFind]
    rw [dFind_eq_none_iff]
    intro hc
    rcases List.mem_map.mp hc with ⟨p, hp, hpk⟩
    exact h p hp hpk
  | cons p ps ih =>
    by_cases hp : p.1 == k <;> simp [dFind, hp, ih]

theorem dFind_split (d : List (κ × α)) (k : κ) (m : α) (h : dFind d k = some m) :
    ∃ l1 l2, d = l1 ++ (k, m) :: l2 ∧ ∀ p ∈ l1, ¬ p.1 = k := by
  induction d with
  | nil => simp [dFind] at h
  | cons p ps ih =>
    by_cases hp : p.1 == k
    · have hk : p.1 = k := by simpa using hp
      rw [dFind, if_pos hp] at h
      refine ⟨[], ps, ?_, by simp⟩
      have : p.2 = m := by simpa using h
      simp [← hk, ← this]
    · rw [dFind, if_neg hp] at h
      obtain ⟨l1, l2, heq, hl1⟩ := ih h
      refine ⟨p :: l1, l2, by simp [heq], ?_⟩
      intro q hq
      rcases List.mem_cons.mp hq with h1 | h1
      · simpa [h1] using hp
      · exact hl1 q h1

end DictLemmas

/-! ### C3: domain matching -/

/-- C3: `_domain_matches(cookie_domain, request_domain)` is false when
`cookie_domain` is empty; true exactly when the lower-casings are equal
or the lower-cased request domain has `"." + cookie_domain` (lower-cased)
as a suffix; and for the dot-less extension `request_domain = "x" +
cookie_domain` it is false. -/
theorem domainMatches_characterization (cd rd : String) :
    (domainMatches cd rd = true ↔
      cd ≠ "" ∧ (pyLower rd = pyLower cd ∨ ('.' :: (pyLower cd).data) <:+ (pyLower rd).data))
    ∧ domainMatches cd ("x" ++ cd) = false := by
  constructor
  · by_cases h : cd = ""
    · simp [domainMatches, h]
    · have hb : (cd == "") = false := by simpa using h
      have hdot : (("." ++ pyLower cd) : String).data = '.' :: (pyLower cd).data := by
        simp [String.data_append, pyLower]
      simp only [domainMatches, hb, Bool.false_eq_true, if_false, pyEndsWith, hdot]
      by_cases h1 : pyLower rd = pyLower cd
      · simp [h1, h]
      · have h1b : (pyLower rd == pyLower cd) = false := by simpa using h1
        by_cases h2 : ('.' :: (pyLower cd).data) <:+ (pyLower rd).data
        · simp [h1b, h, h2, List.isSuffixOf_iff_suffix]
        · simp [h1b, h, h1, h2, List.isSuffixOf_iff_suffix]
  · by_cases h : cd = ""
    · simp [domainMatches, h]
    · have hb : (cd == "") = false := by simpa using h
      have hx : (pyLower ("x" ++ cd)).data = 'x' :: (pyLower cd).data := by
        simp [pyLower, String.data_append]
      have hlen : (pyLower ("x" ++ cd)).data.length = (pyLower cd).data.length + 1 := by
        rw [hx]
        simp
      have hne : (pyLower ("x" ++ cd) == pyLower cd) = false := by
        rw [beq_eq_false_iff_ne]
        intro hceq
        have := congrArg (fun s => s.data.length) hceq
        simp only at this
        omega
      have hsuf : pyEndsWith (pyLower ("x" ++ cd)) ("." ++ pyLower cd) = false := by
        rw [Bool.eq_false_iff]
        intro hcon
        rw [pyEndsWith, List.isSuffixOf_iff_suffix] at hcon
        have hdot : (("." ++ pyLower cd) : String).data = '.' :: (pyLower cd).data := by
          simp [String.data_append, pyLower]
        rw [hdot, hx] at hcon
        have := hcon.sublist.eq_of_length (by simp)
        simp at this
      simp [domainMatches, hb, hne, hsuf]

/-! ### Header composer lemmas, C1 and C9 -/

theorem foldl_headerStep (hs : List (String × String)) (a b : List (String × String)) :
    hs.foldl headerStep (a, b) =
      (a ++ hs.filter isNormalHeader, b ++ hs.filter isPriorityHeader) := by
  induction hs generalizing a b with
  | nil => simp
  | cons p ps ih =>
    rw [List.foldl_cons]
    simp only [headerStep]
    by_cases h1 : pyLower p.1 == "cookie"
    · have hc : pyLower p.1 = "cookie" := by simpa using h1
      have hn : isNormalHeader p = false := by simp [isNormalHeader, h1]
      have hp : isPriorityHeader p = false := by simp [isPriorityHeader, hc]
      rw [if_pos h1, ih, List.filter_cons, List.filter_cons, hn, hp]
      simp
    · by_cases h2 : pyLower p.1 == "priority"
      · have hn : isNormalHeader p = false := by simp [isNormalHeader, h2]
        have hp : isPriorityHeader p = true := by simp [isPriorityHeader, h2]
        rw [if_neg (by simpa using h1), if_pos h2, ih,
          List.filter_cons, List.filter_cons, hn, hp]
        simp
      · have hn : isNormalHeader p = true := by simp [isNormalHeader, h1, h2]
        have hp : isPriorityHeader p = false := by simp [isPriorityHeader, h2]
        rw [if_neg (by simpa using h1), if_neg (by simpa using h2), ih,
          List.filter_cons, List.filter_cons, hn, hp]
        simp

theorem prepareHeaders_eq (store : Store) (hs : List (String × String))
    (cookies : CookieMap) (dom : String) :
    prepareHeaders store hs cookies dom =
      hs.filter isNormalHeader
      ++ (if (mergedCookies store cookies dom).isEmpty then []
          else [("cookie", cookieHeaderValue (mergedCookies store cookies dom))])
      ++ hs.filter isPriorityHeader := by
  simp only [prepareHeaders, partitionHeaders, foldl_headerStep, List.nil_append]
  by_cases h : (mergedCookies store cookies dom).isEmpty <;>
    simp [h, List.append_assoc]

theorem filter_cookieName_isNormal (l : List (String × String)) :
    (l.filter isNormalHeader).filter (fun p => pyLower p.1 == "cookie") = [] := by
  rw [List.filter_eq_nil_iff]
  intro p hp
  rcases List.mem_filter.mp hp with ⟨_, h2⟩
  simp only [isNormalHeader, Bool.and_eq_true, Bool.not_eq_eq_eq_not, Bool.not_true] at h2
  simp [h2.1]

theorem filter_cookieName_isPriority (l : List (String × String)) :
    (l.filter isPriorityHeader).filter (fun p => pyLower p.1 == "cookie") = [] := by
  rw [List.filter_eq_nil_iff]
  intro p hp
  rcases List.mem_filter.mp hp with ⟨_, h2⟩
  have hc : pyLower p.1 = "priority" := by simpa [isPriorityHeader] using h2
  simp [hc]

/-- C1: the composer's output is exactly the non-cookie, non-priority
entries in input order, then — iff the merged cookie mapping is
non-empty — one composed cookie entry, then the priority-named entries
in input order; moreover the only cookie-named entry of the output is
the composed one, so no caller-supplied `Cookie` header survives. -/
theorem headerComposer_output_ordering (store : Store) (hs : List (String × String))
    (cookies : CookieMap) (dom : String) :
    prepareHeaders store hs cookies dom =
      hs.filter isNormalHeader
      ++ (if (mergedCookies store cookies dom).isEmpty then []
          else [("cookie", cookieHeaderValue (mergedCookies store cookies dom))])
      ++ hs.filter isPriorityHeader
    ∧ (prepareHeaders store hs cookies dom).filter (fun p => pyLower p.1 == "cookie")
        = (if (mergedCookies store cookies dom).isEmpty then []
           else [("cookie", cookieHeaderValue (mergedCookies store cookies dom))]) := by
  refine ⟨prepareHeaders_eq store hs cookies dom, ?_⟩
  rw [prepareHeaders_eq store hs cookies dom, List.filter_append, List.filter_append,
    filter_cookieName_isNormal, filter_cookieName_isPriority]
  have hck : pyLower "cookie" = "cookie" := rfl
  by_cases h : (mergedCookies store cookies dom).isEmpty <;> simp [h, hck]

theorem filter_isNormal_self (l : List (String × String)) :
    (l.filter isNormalHeader).filter isNormalHeader = l.filter isNormalHeader := by
  rw [List.filter_filter]
  simp

theorem filter_isPriority_self (l : List (String × String)) :
    (l.filter isPriorityHeader).filter isPriorityHeader = l.filter isPriorityHeader := by
  rw [List.filter_filter]
  simp

theorem filter_isNormal_of_isPriority (l : List (String × String)) :
    (l.filter isPriorityHeader).filter isNormalHeader = [] := by
  rw [List.filter_eq_nil_iff]
  intro p hp
  rcases List.mem_filter.mp hp with ⟨_, h2⟩
  have hc : pyLower p.1 = "priority" := by simpa [isPriorityHeader] using h2
  simp [isNormalHeader, hc]

theorem filter_isPriority_of_isNormal (l : List (String × String)) :
    (l.filter isNormalHeader).filter isPriorityHeader = [] := by
  rw [List.filter_eq_nil_iff]
  intro p hp
  rcases List.mem_filter.mp hp with ⟨_, h2⟩
  simp only [isNormalHeader, Bool.and_eq_true, Bool.not_eq_eq_eq_not, Bool.not_true] at h2
  simp [isPriorityHeader, h2.2]

/-- C9: the composer is a pure, total function — the state-threaded form
of `_prepare_headers` returns the cookie store unchanged next to its
output, so two runs on the same inputs give identical output — and it is
moreover idempotent: feeding its own output back in as the header list
reproduces exactly the same output. -/
theorem headerComposer_pure_idempotent (store : Store) (hs : List (String × String))
    (cookies : CookieMap) (dom : String) :
    prepareHeadersSt store hs cookies dom = (store, prepareHeaders store hs cookies dom)
    ∧ prepareHeaders store (prepareHeaders store hs cookies dom) cookies dom
        = prepareHeaders store hs cookies dom := by
  refine ⟨rfl, ?_⟩
  rw [prepareHeaders_eq store hs cookies dom,
    prepareHeaders_eq store (hs.filter isNormalHeader ++ _ ++ hs.filter isPriorityHeader)
      cookies dom]
  by_cases h : (mergedCookies store cookies dom).isEmpty
  · rw [h]
    simp only [if_true]
    rw [List.filter_append, List.filter_append, List.filter_append, List.filter_append]
    simp only [List.filter_nil, filter_isNormal_self, filter_isPriority_self,
      filter_isNormal_of_isPriority, filter_isPriority_of_isNormal]
    simp
  · have hb : (mergedCookies store cookies dom).isEmpty = false := by
      simpa using h
    rw [hb]
    simp only [Bool.false_eq_true, if_false]
    rw [List.filter_append, List.filter_append, List.filter_append, List.filter_append]
    have hcn : List.filter isNormalHeader [("cookie", cookieHeaderValue (mergedCookies store cookies dom))] = [] := by
      simp [isNormalHeader, pyLower]
    have hcp : List.filter isPriorityHeader [("cookie", cookieHeaderValue (mergedCookies store cookies dom))] = [] := by
      simp [isPriorityHeader, pyLower]
    rw [hcn, hcp]
    simp only [filter_isNormal_self, filter_isPriority_self,
      filter_isNormal_of_isPriority, filter_isPriority_of_isNormal]
    simp

/-! ### C2: cookie merging and one-off precedence -/

theorem nodup_keys_mergedBase (store : Store) (dom : String) (a : CookieMap)
    (h : (a.map Prod.fst).Nodup) :
    ((store.foldl
        (fun acc e => if e.1 == dom || domainMatches e.1 dom then dUpdate acc e.2 else acc)
        a).map Prod.fst).Nodup := by
  induction store generalizing a with
  | nil => simpa
  | cons e es ih =>
    rw [List.foldl_cons]
    by_cases hc : (e.1 == dom || domainMatches e.1 dom) = true
    · rw [if_pos hc]
      exact ih _ (nodup_keys_dUpdate _ _ h)
    · rw [if_neg hc]
      exact ih _ h

/-- C2: after the merge, a cookie name supplied in the one-off mapping is
bound to its one-off value: looking it up in the merged mapping gives the
one-off value, the merged mapping's keys are unique, and hence no
same-named pair with a different (e.g. stored) value is present. -/
theorem mergedCookies_oneOff_wins (store : Store) (cookies : CookieMap)
    (dom n v : String)
    (hnd : (cookies.map Prod.fst).Nodup) (h : dFind cookies n = some v) :
    dFind (mergedCookies store cookies dom) n = some v
    ∧ ((mergedCookies store cookies dom).map Prod.fst).Nodup
    ∧ ∀ v', (n, v') ∈ mergedCookies store cookies dom → v' = v := by
  have hne : cookies.isEmpty = false := by
    cases cookies with
    | nil => simp [dFind] at h
    | cons p ps => simp
  have h1 : dFind (mergedCookies store cookies dom) n = some v := by
    rw [mergedCookies, hne]
    simp only [Bool.false_eq_true, if_false]
    exact dFind_dUpdate_of_some _ _ _ _ hnd h
  have h2 : ((mergedCookies store cookies dom).map Prod.fst).Nodup := by
    rw [mergedCookies, hne]
    simp only [Bool.false_eq_true, if_false]
    exact nodup_keys_dUpdate _ _ (nodup_keys_mergedBase store dom [] (by simp))
  exact ⟨h1, h2, fun v' hv' => dFind_eq_of_mem_nodup _ _ _ _ h2 h1 hv'⟩

/-- Witness for C2 at the spec's own example: store `{domain.com: {x: 1}}`,
one-off `{x: 2}`, request domain `domain.com`. -/
theorem mergedCookies_oneOff_wins_witness :
    dFind (mergedCookies [("domain.com", [("x", "1")])] [("x", "2")] "domain.com") "x"
      = some "2" :=
  (mergedCookies_oneOff_wins [("domain.com", [("x", "1")])] [("x", "2")]
    "domain.com" "x" "2" (by decide) (by decide)).1

/-! ### Set-Cookie parsing lemmas, C4, C5 and C10 -/

theorem splitChars_ne_nil (sep : Char) (l : List Char) : splitChars sep l ≠ [] := by
  cases l with
  | nil => simp [splitChars]
  | cons c cs =>
    rw [splitChars]
    by_cases h : c = sep
    · simp [h]
    · rw [if_neg h]
      cases hs : splitChars sep cs <;> simp

theorem splitChars_headD (sep : Char) (l : List Char) :
    (splitChars sep l).headD [] = l.takeWhile (fun c => c != sep) := by
  induction l with
  | nil => rfl
  | cons c cs ih =>
    rw [splitChars]
    by_cases h : c = sep
    · rw [if_pos h]
      have hb : (c != sep) = false := by simp [h]
      simp [List.takeWhile_cons, hb]
    · rw [if_neg h]
      have hb : (c != sep) = true := by simp [h]
      cases hs : splitChars sep cs with
      | nil => exact absurd hs (splitChars_ne_nil sep cs)
      | cons hd tl =>
        rw [hs] at ih
        simp only [List.headD_cons] at ih
        simp [List.takeWhile_cons, hb, ih]

theorem pySplit_headD (v : String) (sep : Char) :
    (pySplit v sep).headD "" = String.mk (v.data.takeWhile (fun c => c != sep)) := by
  rw [pySplit]
  cases hs : splitChars sep v.data with
  | nil => exact absurd hs (splitChars_ne_nil sep v.data)
  | cons hd tl =>
    have hh := splitChars_headD sep v.data
    rw [hs] at hh
    simp only [List.headD_cons] at hh
    simp [hh]

theorem mem_of_mem_pyStrip (s : String) (c : Char) (h : c ∈ (pyStrip s).data) :
    c ∈ s.data := by
  simp only [pyStrip] at h
  rw [List.mem_reverse] at h
  have h2 := (List.dropWhile_sublist _).subset h
  rw [List.mem_reverse] at h2
  exact (List.dropWhile_sublist _).subset h2

theorem pyContains_of_strip_headD (v : String) (c : Char)
    (h : pyContains (pyStrip ((pySplit v ';').headD "")) c = true) :
    pyContains v c = true := by
  rw [pyContains, List.contains_iff_exists_mem_beq] at h ⊢
  obtain ⟨a, ha, hab⟩ := h
  refine ⟨a, ?_, hab⟩
  have h1 : a ∈ ((pySplit v ';').headD "").data := mem_of_mem_pyStrip _ _ ha
  rw [pySplit_headD] at h1
  exact (List.takeWhile_sublist _).subset h1

theorem findDomainAttr_eq_find (ps : List String) :
    findDomainAttr ps =
      (match (ps.map pyStrip).find? (fun q => pyStartsWith (pyLower q) "domain=") with
        | none => ""
        | some q => stripLeadingDot (pyLower (pyStrip (pySplitFirst q '=').2))) := by
  induction ps with
  | nil => rfl
  | cons p rest ih =>
    rw [List.map_cons, List.find?_cons]
    by_cases h : pyStartsWith (pyLower (pyStrip p)) "domain=" = true
    · simp [findDomainAttr, h]
    · have hb : pyStartsWith (pyLower (pyStrip p)) "domain=" = false := by simpa using h
      simp only [findDomainAttr, hb, Bool.false_eq_true, if_false]
      rw [ih]

theorem parseOneSetCookie_eq (v : String)
    (h : pyContains (pyStrip ((pySplit v ';').headD "")) '=' = true) :
    parseOneSetCookie v =
      [(pyStrip (pySplitFirst (pyStrip ((pySplit v ';').headD "")) '=').1,
        pyStrip (pySplitFirst (pyStrip ((pySplit v ';').headD "")) '=').2,
        findDomainAttr (pySplit v ';').tail)] := by
  have hout : pyContains v '=' = true := pyContains_of_strip_headD v '=' h
  have h2 : pyContains (pyStrip ((pySplit v ';').head?.getD "")) '=' = true := by
    simpa using h
  simp [parseOneSetCookie, hout, h2]

/-- C4: a `Set-Cookie` value whose first `;`-segment (trimmed) contains
an `=` yields exactly one parsed cookie — name the trimmed text before
the first `=`, value the trimmed text after it — and ingesting it stores
that pair under the declared `Domain` attribute (first matching segment,
trimmed, lower-cased, one leading dot stripped) when that yields a
non-empty string, else under the request domain. -/
theorem setCookie_ingestion (store : Store) (rd v : String)
    (h : pyContains (pyStrip ((pySplit v ';').headD "")) '=' = true) :
    (let seg := pyStrip ((pySplit v ';').headD "")
     let name := pyStrip (pySplitFirst seg '=').1
     let value := pyStrip (pySplitFirst seg '=').2
     let declared :=
       (match ((pySplit v ';').tail.map pyStrip).find?
           (fun q => pyStartsWith (pyLower q) "domain=") with
         | none => ""
         | some q => stripLeadingDot (pyLower (pyStrip (pySplitFirst q '=').2)))
     let sd := if declared == "" then rd else declared
     parseOneSetCookie v = [(name, value, declared)]
     ∧ updateCookiesFromResponse store [("Set-Cookie", [v])] rd
         = dInsert store sd
             (dInsert (match dFind store sd with | some m => m | none => []) name value)) := by
  have hp := parseOneSetCookie_eq v h
  have hd := findDomainAttr_eq_find (pySplit v ';').tail
  refine ⟨?_, ?_⟩
  · rw [hp, hd]
  · rw [updateCookiesFromResponse]
    simp only [List.foldl_cons, List.foldl_nil]
    rw [if_pos (by rfl : (pyLower "Set-Cookie" == "set-cookie") = true)]
    rw [parseSetCookie]
    simp only [List.foldl_cons, List.foldl_nil, List.nil_append]
    rw [hp]
    simp only [List.foldl_cons, List.foldl_nil]
    rw [updateOne, hd]

/-- Witness for C4 at the spec's own example. -/
theorem setCookie_ingestion_witness :
    getCookiesForDomain
      (updateCookiesFromResponse []
        [("Set-Cookie", ["sid=abc123; Domain=.example.com; Path=/; HttpOnly"])]
        "shop.example.com")
      "example.com" = [("sid", "abc123")] := by
  have h := setCookie_ingestion [] "shop.example.com"
    "sid=abc123; Domain=.example.com; Path=/; HttpOnly" (by decide)
  rw [getCookiesForDomain, h.2]
  rfl

/-- C5: a `Set-Cookie` value whose first `;`-segment (trimmed) lacks an
`=` is skipped silently: ingesting it leaves the cookie store exactly
unchanged (for any response header name).  Totality over arbitrary
strings holds by construction of the embedding. -/
theorem malformed_setCookie_noop (store : Store) (rd hname v : String)
    (h : pyContains (pyStrip ((pySplit v ';').headD "")) '=' = false) :
    updateCookiesFromResponse store [(hname, [v])] rd = store := by
  have hparse : parseOneSetCookie v = [] := by
    by_cases hc : pyContains v '=' = true
    · have h2 : pyContains (pyStrip ((pySplit v ';').head?.getD "")) '=' = false := by
        simpa using h
      simp [parseOneSetCookie, hc, h2]
    · simp [parseOneSetCookie, hc]
  rw [updateCookiesFromResponse]
  simp only [List.foldl_cons, List.foldl_nil]
  by_cases hs : (pyLower hname == "set-cookie") = true
  · rw [if_pos hs, parseSetCookie]
    simp [hparse]
  · rw [if_neg hs]

/-- Witness for C5 at the spec's own example `"garbage-no-equals"`. -/
theorem malformed_setCookie_noop_witness :
    updateCookiesFromResponse [("d", [("x", "1")])]
      [("Set-Cookie", ["garbage-no-equals"])] "d" = [("d", [("x", "1")])] :=
  malformed_setCookie_noop [("d", [("x", "1")])] "d" "Set-Cookie" "garbage-no-equals"
    (by decide)

/-- C10: ingestion never compares the declared `Domain` attribute with
the request domain: whenever parsing yields a non-empty declared domain
`d`, the cookie is stored under `d` — even when `_domain_matches(d, rd)`
is false, so a response can create entries for unrelated domains. -/
theorem ingestion_skips_domain_check (store : Store) (rd v n val d : String)
    (hp : parseOneSetCookie v = [(n, val, d)])
    (hd : ¬ d = "")
    (hnm : domainMatches d rd = false) :
    dFind ((dFind (updateCookiesFromResponse store [("Set-Cookie", [v])] rd) d).getD []) n
      = some val := by
  rw [updateCookiesFromResponse]
  simp only [List.foldl_cons, List.foldl_nil]
  rw [if_pos (by rfl : (pyLower "Set-Cookie" == "set-cookie") = true)]
  rw [parseSetCookie]
  simp only [List.foldl_cons, List.foldl_nil, List.nil_append]
  rw [hp]
  simp only [List.foldl_cons, List.foldl_nil]
  rw [updateOne]
  have hb : (((n, val, d).2.2 : String) == "") = false := by simpa using hd
  simp only [hb, Bool.false_eq_true, if_false]
  rw [dFind_dInsert_self]
  simp only [Option.getD_some]
  rw [dFind_dInsert_self]

/-- Witness for C10: a response from `good.org` creates a store entry
for the unrelated domain `evil.com`. -/
theorem ingestion_skips_domain_check_witness :
    dFind ((dFind (updateCookiesFromResponse []
        [("Set-Cookie", ["a=b; Domain=evil.com"])] "good.org") "evil.com").getD []) "a"
      = some "b" :=
  ingestion_skips_domain_check [] "good.org" "a=b; Domain=evil.com" "a" "b" "evil.com"
    (by decide) (by decide) (by decide)

/-! ### C6: store-key invariant -/

theorem char_toLower_idem (c : Char) : c.toLower.toLower = c.toLower := by
  unfold Char.toLower
  by_cases h : c.toNat ≥ 65 ∧ c.toNat ≤ 90
  · rw [if_pos h]
    have hval : (Char.toNat c + 32).isValidChar := Or.inl (by omega)
    have ht : (Char.ofNat (c.toNat + 32)).toNat = c.toNat + 32 := by
      rw [Char.ofNat, dif_pos hval]
      rfl
    rw [if_neg (by rw [ht]; omega)]
  · rw [if_neg h]
    rw [if_neg h]

theorem pyLower_idem (s : String) : pyLower (pyLower s) = pyLower s := by
  apply String.ext
  show (s.data.map Char.toLower).map Char.toLower = s.data.map Char.toLower
  rw [List.map_map]
  exact List.map_congr_left (fun c _ => char_toLower_idem c)

theorem isLowered_stripLeadingDot (s : String) :
    pyLower (stripLeadingDot (pyLower s)) = stripLeadingDot (pyLower s) := by
  rw [stripLeadingDot]
  by_cases h : pyStartsWith (pyLower s) "." = true
  · rw [if_pos h]
    apply String.ext
    show ((s.data.map Char.toLower).drop 1).map Char.toLower
      = (s.data.map Char.toLower).drop 1
    rw [← List.map_drop, List.map_map]
    congr 1
    funext c
    exact char_toLower_idem c
  · rw [if_neg h]
    exact pyLower_idem s

theorem isLowered_findDomainAttr (ps : List String) :
    pyLower (findDomainAttr ps) = findDomainAttr ps := by
  induction ps with
  | nil => rfl
  | cons p rest ih =>
    simp only [findDomainAttr]
    by_cases h : pyStartsWith (pyLower (pyStrip p)) "domain=" = true
    · rw [if_pos h]
      exact isLowered_stripLeadingDot _
    · rw [if_neg h]
      exact ih

theorem parseOneSetCookie_domain_lowered (v : String) :
    ∀ c ∈ parseOneSetCookie v, pyLower c.2.2 = c.2.2 := by
  intro c hc
  simp only [parseOneSetCookie] at hc
  by_cases h1 : pyContains v '=' = true
  · rw [if_pos h1] at hc
    by_cases h2 : pyContains (pyStrip ((pySplit v ';').headD "")) '=' = true
    · rw [if_pos h2] at hc
      have : c = (pyStrip (pySplitFirst (pyStrip ((pySplit v ';').headD "")) '=').1,
          pyStrip (pySplitFirst (pyStrip ((pySplit v ';').headD "")) '=').2,
          findDomainAttr (pySplit v ';').tail) := by simpa using hc
      rw [this]
      exact isLowered_findDomainAttr _
    · rw [if_neg h2] at hc
      simp at hc
  · rw [if_neg h1] at hc
    simp at hc

theorem storeKeysOk_dInsert (st : Store) (k : String) (m : CookieMap)
    (h : storeKeysOk st) (hk : goodKey k) : storeKeysOk (dInsert st k m) := by
  intro a ha
  rw [mem_keys_dInsert] at ha
  rcases ha with ha | ha
  · exact h a ha
  · exact ha ▸ hk

theorem storeKeysOk_updateOne (st : Store) (rd : String) (c : String × String × String)
    (h : storeKeysOk st) (hrd : goodKey rd)
    (hcl : pyLower c.2.2 = c.2.2) (hcd : pyStartsWith c.2.2 "." = false) :
    storeKeysOk (updateOne st rd c) := by
  have hsd : goodKey (if c.2.2 == "" then rd else c.2.2) := by
    by_cases hb : (c.2.2 == "") = true
    · rw [if_pos hb]
      exact hrd
    · rw [if_neg hb]
      exact ⟨hcl, hcd⟩
  exact storeKeysOk_dInsert _ _ _ h hsd

theorem storeKeysOk_foldCookies (cs : List (String × String × String)) (st : Store)
    (rd : String) (h : storeKeysOk st) (hrd : goodKey rd)
    (h3 : ∀ c ∈ cs, pyLower c.2.2 = c.2.2 ∧ pyStartsWith c.2.2 "." = false) :
    storeKeysOk (cs.foldl (fun st2 c => updateOne st2 rd c) st) := by
  induction cs generalizing st with
  | nil => simpa
  | cons c cs ih =>
    rw [List.foldl_cons]
    exact ih _
      (storeKeysOk_updateOne _ _ _ h hrd (h3 c (by simp)).1 (h3 c (by simp)).2)
      (fun c' hc' => h3 c' (by simp [hc']))

theorem mem_foldl_parse (values : List String) (a : List (String × String × String))
    (c : String × String × String)
    (h : c ∈ values.foldl (fun acc v => acc ++ parseOneSetCookie v) a) :
    c ∈ a ∨ ∃ v ∈ values, c ∈ parseOneSetCookie v := by
  induction values generalizing a with
  | nil => exact Or.inl h
  | cons v vs ih =>
    rw [List.foldl_cons] at h
    rcases ih _ h with h1 | h1
    · rcases List.mem_append.mp h1 with h2 | h2
      · exact Or.inl h2
      · exact Or.inr ⟨v, by simp, h2⟩
    · obtain ⟨w, hw, hcw⟩ := h1
      exact Or.inr ⟨w, by simp [hw], hcw⟩

theorem mem_parseSetCookie (values : List String) (c : String × String × String)
    (h : c ∈ parseSetCookie values) : ∃ v ∈ values, c ∈ parseOneSetCookie v := by
  rcases mem_foldl_parse values [] c h with h1 | h1
  · simp at h1
  · exact h1

theorem storeKeysOk_updateCookies (resp : List (String × List String)) (st : Store)
    (rd : String) (h : storeKeysOk st) (hrd : goodKey rd)
    (h3 : ∀ hdr ∈ resp, ∀ raw ∈ hdr.2, ∀ c ∈ parseOneSetCookie raw,
        pyStartsWith c.2.2 "." = false) :
    storeKeysOk (updateCookiesFromResponse st resp rd) := by
  induction resp generalizing st with
  | nil => simpa [updateCookiesFromResponse]
  | cons hdr rest ih =>
    rw [updateCookiesFromResponse, List.foldl_cons]
    by_cases hs : (pyLower hdr.1 == "set-cookie") = true
    · rw [if_pos hs]
      exact ih _
        (storeKeysOk_foldCookies _ _ _ h hrd (fun c hc => by
          obtain ⟨raw, hraw, hcraw⟩ := mem_parseSetCookie hdr.2 c hc
          exact ⟨parseOneSetCookie_domain_lowered raw c hcraw,
            h3 hdr (by simp) raw hraw c hcraw⟩))
        (fun hdr' h' => h3 hdr' (by simp [h']))
    · rw [if_neg hs]
      exact ih _ h (fun hdr' h' => h3 hdr' (by simp [h']))

/-- C6 counterexample: a `Domain` attribute with two leading dots is
stored with a leading dot — `_parse_set_cookie` strips exactly one. -/
theorem storeKeyInvariant_counterexample :
    updateCookiesFromResponse [] [("Set-Cookie", ["a=b; Domain=..example.com"])] "site.com"
      = [(".example.com", [("a", "b")])]
    ∧ pyStartsWith ".example.com" "." = true := by
  exact ⟨by decide, by decide⟩

/-- C6 amended: every write to the store keeps keys lower-cased, and
keys stay free of leading dots provided the request domain is a good key
and every declared `Domain` value (trimmed, lower-cased, one leading dot
stripped) has no remaining leading dot — i.e. carried at most one. -/
theorem storeKeyInvariant_preserved (store : Store) (rd : String) (cookies : CookieMap)
    (hl : List (String × String)) (resp : List (String × List String))
    (h1 : storeKeysOk store) (h2 : goodKey rd)
    (h3 : ∀ hdr ∈ resp, ∀ raw ∈ hdr.2, ∀ c ∈ parseOneSetCookie raw,
        pyStartsWith c.2.2 "." = false) :
    storeKeysOk (requestStep store rd cookies hl resp).1 := by
  have hst1 : storeKeysOk (if cookies.isEmpty then store else
      dInsert store rd (dUpdate (match dFind store rd with
        | some m => m
        | none => []) cookies)) := by
    by_cases hb : cookies.isEmpty = true
    · rw [if_pos hb]
      exact h1
    · rw [if_neg hb]
      exact storeKeysOk_dInsert _ _ _ h1 h2
  exact storeKeysOk_updateCookies resp _ rd hst1 h2 h3

/-- Witness for the amended C6. -/
theorem storeKeyInvariant_preserved_witness :
    storeKeysOk (requestStep [] "site.com" [("a", "1")] []
      [("Set-Cookie", ["x=y; Domain=.ok.com"])]).1 :=
  storeKeyInvariant_preserved [] "site.com" [("a", "1")] []
    [("Set-Cookie", ["x=y; Domain=.ok.com"])]
    (by intro k hk; simp at hk) ⟨by decide, by decide⟩ (by decide)

/-! ### C7: persistence of one-off cookies -/

theorem mem_dInsert {κ α : Type} [BEq κ] (d : List (κ × α)) (k : κ) (v : α)
    (e : κ × α) (h : e ∈ dInsert d k v) : e ∈ d ∨ e.2 = v := by
  induction d with
  | nil =>
    rw [dInsert] at h
    rcases List.mem_singleton.mp h with h1
    exact Or.inr (by rw [h1])
  | cons p ps ih =>
    by_cases hp : (p.1 == k) = true
    · rw [dInsert, if_pos hp] at h
      rcases List.mem_cons.mp h with h1 | h1
      · exact Or.inr (by rw [h1])
      · exact Or.inl (List.mem_cons_of_mem _ h1)
    · rw [dInsert, if_neg hp] at h
      rcases List.mem_cons.mp h with h1 | h1
      · exact Or.inl (h1 ▸ List.mem_cons_self p ps)
      · rcases ih h1 with h2 | h2
        · exact Or.inl (List.mem_cons_of_mem _ h2)
        · exact Or.inr h2

theorem mem_of_dFind {κ α : Type} [BEq κ] [LawfulBEq κ] (d : List (κ × α)) (k : κ)
    (m : α) (h : dFind d k = some m) : (k, m) ∈ d := by
  induction d with
  | nil => simp [dFind] at h
  | cons p ps ih =>
    by_cases hp : (p.1 == k) = true
    · have hk : p.1 = k := by simpa using hp
      rw [dFind, if_pos hp] at h
      have hm : p.2 = m := by simpa using h
      have : p = (k, m) := by
        rw [← hk, ← hm]
      exact this ▸ List.mem_cons_self p ps
    · rw [dFind, if_neg hp] at h
      exact List.mem_cons_of_mem _ (ih h)

theorem StoreWF_dInsert (st : Store) (k : String) (m : CookieMap)
    (h : StoreWF st) (hm : (m.map Prod.fst).Nodup) : StoreWF (dInsert st k m) := by
  refine ⟨nodup_keys_dInsert _ _ _ h.1, ?_⟩
  intro e he
  rcases mem_dInsert _ _ _ e he with h1 | h1
  · exact h.2 e h1
  · rw [h1]
    exact hm

theorem nodup_inner_cur (st : Store) (k : String) (h : StoreWF st) :
    (((match dFind st k with | some m => m | none => []) : CookieMap).map Prod.fst).Nodup := by
  cases hf : dFind st k with
  | none => simp
  | some m => exact h.2 (k, m) (mem_of_dFind _ _ _ hf)

theorem StoreWF_updateOne (st : Store) (rd : String) (c : String × String × String)
    (h : StoreWF st) : StoreWF (updateOne st rd c) := by
  rw [updateOne]
  exact StoreWF_dInsert _ _ _ h (nodup_keys_dInsert _ _ _ (nodup_inner_cur st _ h))

theorem StoreWF_foldCookies (cs : List (String × String × String)) (st : Store)
    (rd : String) (h : StoreWF st) :
    StoreWF (cs.foldl (fun st2 c => updateOne st2 rd c) st) := by
  induction cs generalizing st with
  | nil => simpa
  | cons c cs ih =>
    rw [List.foldl_cons]
    exact ih _ (StoreWF_updateOne _ _ _ h)

theorem StoreWF_updateCookies (resp : List (String × List String)) (st : Store)
    (rd : String) (h : StoreWF st) :
    StoreWF (updateCookiesFromResponse st resp rd) := by
  induction resp generalizing st with
  | nil => simpa [updateCookiesFromResponse]
  | cons hdr rest ih =>
    rw [updateCookiesFromResponse, List.foldl_cons]
    by_cases hs : (pyLower hdr.1 == "set-cookie") = true
    · rw [if_pos hs]
      exact ih _ (StoreWF_foldCookies _ _ _ h)
    · rw [if_neg hs]
      exact ih _ h

theorem updateOne_keeps_entry (st : Store) (D n v : String) (c : String × String × String)
    (hinv : ∃ m, dFind st D = some m ∧ dFind m n = some v)
    (hc : (if c.2.2 == "" then D else c.2.2) = D → c.1 ≠ n) :
    ∃ m, dFind (updateOne st D c) D = some m ∧ dFind m n = some v := by
  obtain ⟨m, h1, h2⟩ := hinv
  by_cases hsd : (if c.2.2 == "" then D else c.2.2) = D
  · have hne : n ≠ c.1 := fun e => hc hsd e.symm
    refine ⟨dInsert m c.1 c.2.1, ?_, ?_⟩
    · simp only [updateOne]
      rw [hsd, h1]
      exact dFind_dInsert_self _ _ _
    · rw [dFind_dInsert_ne _ _ _ _ hne]
      exact h2
  · refine ⟨m, ?_, h2⟩
    simp only [updateOne]
    rw [dFind_dInsert_ne _ _ _ _ (fun e => hsd e.symm)]
    exact h1

theorem foldCookies_keeps_entry (cs : List (String × String × String)) (st : Store)
    (D n v : String)
    (hinv : ∃ m, dFind st D = some m ∧ dFind m n = some v)
    (hcs : ∀ c ∈ cs, (if c.2.2 == "" then D else c.2.2) = D → c.1 ≠ n) :
    ∃ m, dFind (cs.foldl (fun st2 c => updateOne st2 D c) st) D = some m
      ∧ dFind m n = some v := by
  induction cs generalizing st with
  | nil => simpa
  | cons c cs ih =>
    rw [List.foldl_cons]
    exact ih _ (updateOne_keeps_entry _ _ _ _ _ hinv (hcs c (by simp)))
      (fun c' hc' => hcs c' (by simp [hc']))

theorem ingest_keeps_entry (resp : List (String × List String)) (st : Store)
    (D n v : String)
    (hinv : ∃ m, dFind st D = some m ∧ dFind m n = some v)
    (hresp : ∀ hdr ∈ resp, ∀ raw ∈ hdr.2, ∀ c ∈ parseOneSetCookie raw,
        (if c.2.2 == "" then D else c.2.2) = D → c.1 ≠ n) :
    ∃ m, dFind (updateCookiesFromResponse st resp D) D = some m
      ∧ dFind m n = some v := by
  induction resp generalizing st with
  | nil => simpa [updateCookiesFromResponse]
  | cons hdr rest ih =>
    rw [updateCookiesFromResponse, List.foldl_cons]
    by_cases hs : (pyLower hdr.1 == "set-cookie") = true
    · rw [if_pos hs]
      refine ih _ ?_ (fun hdr' h' => hresp hdr' (by simp [h']))
      refine foldCookies_keeps_entry _ _ _ _ _ hinv ?_
      intro c hc
      obtain ⟨raw, hraw, hcraw⟩ := mem_parseSetCookie hdr.2 c hc
      exact hresp hdr (by simp) raw hraw c hcraw
    · rw [if_neg hs]
      exact ih _ hinv (fun hdr' h' => hresp hdr' (by simp [h']))

theorem merged_fold_skip (l : Store) (dom n : String) (acc : CookieMap)
    (h : ∀ e ∈ l, (e.1 == dom || domainMatches e.1 dom) = true → dFind e.2 n = none) :
    dFind (l.foldl
      (fun acc e => if e.1 == dom || domainMatches e.1 dom then dUpdate acc e.2 else acc)
      acc) n = dFind acc n := by
  induction l generalizing acc with
  | nil => rfl
  | cons e es ih =>
    rw [List.foldl_cons]
    by_cases hc : (e.1 == dom || domainMatches e.1 dom) = true
    · rw [if_pos hc]
      rw [ih _ (fun e' he' => h e' (by simp [he']))]
      exact dFind_dUpdate_of_none _ _ _ (by
        rw [dFind_eq_none_iff]
        have := h e (by simp) hc
        rw [dFind_eq_none_iff] at this
        exact this)
    · rw [if_neg hc]
      exact ih _ (fun e' he' => h e' (by simp [he']))

theorem merged_lookup (store : Store) (dom n v : String) (m : CookieMap)
    (hwf : StoreWF store)
    (hD : dFind store dom = some m)
    (hm : dFind m n = some v)
    (hothers : ∀ e ∈ store, e.1 ≠ dom →
        (e.1 == dom || domainMatches e.1 dom) = true → dFind e.2 n = none) :
    dFind (mergedCookies store [] dom) n = some v := by
  obtain ⟨l1, l2, heq, hl1⟩ := dFind_split store dom m hD
  have hnodup := hwf.1
  rw [heq, List.map_append, List.map_cons] at hnodup
  have hdoml2 : ("dom" = "dom") → dom ∉ l2.map Prod.fst := by
    intro _
    have := List.Nodup.of_append_right hnodup
    rw [List.nodup_cons] at this
    exact this.1
  have hl2ne : ∀ e ∈ l2, e.1 ≠ dom := by
    intro e he hedom
    exact (hdoml2 rfl) (hedom ▸ List.mem_map.mpr ⟨e, he, rfl⟩)
  have hmnodup : (m.map Prod.fst).Nodup := hwf.2 (dom, m) (mem_of_dFind _ _ _ hD)
  rw [mergedCookies]
  simp only [List.isEmpty_nil, if_true]
  rw [heq, List.foldl_append, List.foldl_cons]
  rw [if_pos (by simp)]
  rw [merged_fold_skip l2 dom n _ (fun e he hc =>
    hothers e (heq ▸ List.mem_append.mpr (Or.inr (List.mem_cons_of_mem _ he)))
      (hl2ne e he) hc)]
  exact dFind_dUpdate_of_some _ _ _ _ hmnodup hm

/-- C7 counterexample: after a request to `a.example.com` with one-off
cookie `init=hello` whose response sets `init=bye` for the parent domain
`example.com` (not for `a.example.com`, so the claim's caveat is met and
the store entry for the request domain does keep `init=hello`), the
subsequent request's outbound cookie header is `init=bye`: the parent
domain is iterated after the request domain during the merge and
overwrites the persisted pair, so the output does not contain it. -/
theorem oneOff_cookie_counterexample :
    (let s1 := (requestStep [] "a.example.com" [("init", "hello")] []
        [("Set-Cookie", ["init=bye; Domain=example.com"])]).1
     dFind ((dFind s1 "a.example.com").getD []) "init" = some "hello"
     ∧ (requestStep s1 "a.example.com" [] [] []).2 = [("cookie", "init=bye")]
     ∧ ("init", "hello") ∉ mergedCookies s1 [] "a.example.com") := by
  exact ⟨by decide, by decide, by decide⟩

/-- C7 amended: after a request to domain `D` carrying one-off cookies,
the store's entry for `D` binds every one-off name to its value provided
the response sets no same-named cookie whose storage domain is `D`; and
the subsequent request to `D` with no explicit cookies carries that pair
in its composed cookie header provided additionally no *other* stored
domain matching `D` holds a same-named cookie after the call (the
counterexample shows a later-iterated matching parent domain otherwise
overwrites it). -/
theorem oneOff_cookie_persisted (store : Store) (D : String) (oneOff : CookieMap)
    (hl hl2 : List (String × String)) (resp : List (String × List String)) (n v : String)
    (hwf : StoreWF store)
    (hnd : (oneOff.map Prod.fst).Nodup)
    (hfind : dFind oneOff n = some v)
    (hresp : ∀ hdr ∈ resp, ∀ raw ∈ hdr.2, ∀ c ∈ parseOneSetCookie raw,
        (if c.2.2 == "" then D else c.2.2) = D → c.1 ≠ n)
    (hothers : ∀ e ∈ (requestStep store D oneOff hl resp).1, e.1 ≠ D →
        (e.1 == D || domainMatches e.1 D) = true → dFind e.2 n = none) :
    (∃ m, dFind (requestStep store D oneOff hl resp).1 D = some m ∧ dFind m n = some v)
    ∧ dFind (mergedCookies (requestStep store D oneOff hl resp).1 [] D) n = some v
    ∧ ("cookie", cookieHeaderValue (mergedCookies (requestStep store D oneOff hl resp).1 [] D))
        ∈ prepareHeaders (requestStep store D oneOff hl resp).1 hl2 [] D := by
  have hne : oneOff.isEmpty = false := by
    cases oneOff with
    | nil => simp [dFind] at hfind
    | cons p ps => simp
  have hstep : (requestStep store D oneOff hl resp).1
      = updateCookiesFromResponse
          (dInsert store D (dUpdate (match dFind store D with
            | some m => m
            | none => []) oneOff)) resp D := by
    simp only [requestStep, hne, Bool.false_eq_true, if_false]
  have hinv1 : ∃ m, dFind (dInsert store D (dUpdate (match dFind store D with
      | some m => m
      | none => []) oneOff)) D = some m ∧ dFind m n = some v := by
    refine ⟨dUpdate (match dFind store D with | some m => m | none => []) oneOff,
      dFind_dInsert_self _ _ _, ?_⟩
    exact dFind_dUpdate_of_some _ _ _ _ hnd hfind
  have hwf1 : StoreWF (dInsert store D (dUpdate (match dFind store D with
      | some m => m
      | none => []) oneOff)) :=
    StoreWF_dInsert _ _ _ hwf (nodup_keys_dUpdate _ _ (nodup_inner_cur store _ hwf))
  have hinv2 := ingest_keeps_entry resp _ D n v hinv1 hresp
  rw [← hstep] at hinv2
  have hwf2 : StoreWF (requestStep store D oneOff hl resp).1 := by
    rw [hstep]
    exact StoreWF_updateCookies _ _ _ hwf1
  obtain ⟨m2, hm2, hm2n⟩ := hinv2
  have hmerged : dFind (mergedCookies (requestStep store D oneOff hl resp).1 [] D) n
      = some v :=
    merged_lookup _ _ _ _ _ hwf2 hm2 hm2n hothers
  refine ⟨⟨m2, hm2, hm2n⟩, hmerged, ?_⟩
  have hmne : (mergedCookies (requestStep store D oneOff hl resp).1 [] D).isEmpty
      = false := by
    cases hmc : mergedCookies (requestStep store D oneOff hl resp).1 [] D with
    | nil => rw [hmc] at hmerged; simp [dFind] at hmerged
    | cons p ps => simp
  rw [prepareHeaders_eq, hmne]
  simp only [Bool.false_eq_true, if_false]
  exact List.mem_append.mpr (Or.inl (List.mem_append.mpr (Or.inr (by simp))))

/-- Witness for the amended C7: a fresh client, one request with one-off
cookie `init=hello` and an empty response, then the merged cookies of a
second request. -/
theorem oneOff_cookie_persisted_witness :
    dFind (mergedCookies
      (requestStep [] "a.example.com" [("init", "hello")] [] []).1 [] "a.example.com")
      "init" = some "hello" :=
  (oneOff_cookie_persisted [] "a.example.com" [("init", "hello")] [] [] [] "init" "hello"
    ⟨by simp, by intro e he; simp at he⟩ (by decide) (by decide)
    (by intro hdr h; simp at h) (by decide)).2.1

/-! ### C8: the cookie accessors return copies -/

theorem dFind_append_sing_self {κ α : Type} [BEq κ] [LawfulBEq κ]
    (l : List (κ × α)) (j : κ) (m : α) (h : dFind l j = none) :
    dFind (l ++ [(j, m)]) j = some m := by
  induction l with
  | nil => simp [dFind]
  | cons p ps ih =>
    by_cases hp : (p.1 == j) = true
    · rw [dFind, if_pos hp] at h
      simp at h
    · rw [dFind, if_neg hp] at h
      rw [List.cons_append, dFind, if_neg hp]
      exact ih h

theorem dFind_map_heapRead (es : List (String × Nat)) (h : DictHeap) (k : String) :
    dFind (es.map (fun p => (p.1, heapRead h p.2))) k
      = (dFind es k).map (heapRead h) := by
  induction es with
  | nil => rfl
  | cons p ps ih =>
    by_cases hp : (p.1 == k) = true <;> simp [dFind, hp, ih]

theorem cookiesAll_fold_spec (es : List (String × Nat)) (t : StoreH)
    (out : List (String × Nat))
    (hents : ∀ p ∈ es, p.2 < t.heap.next)
    (hheap : ∀ q ∈ t.heap.dicts, q.1 < t.heap.next)
    (hout : ∀ p ∈ out, p.2 < t.heap.next) :
    (es.foldl allCopyStep (t, out)).1.entries = t.entries
    ∧ t.heap.next ≤ (es.foldl allCopyStep (t, out)).1.heap.next
    ∧ (∀ i, i < t.heap.next →
        dFind (es.foldl allCopyStep (t, out)).1.heap.dicts i = dFind t.heap.dicts i)
    ∧ (∀ q ∈ (es.foldl allCopyStep (t, out)).1.heap.dicts,
        q.1 < (es.foldl allCopyStep (t, out)).1.heap.next)
    ∧ (es.foldl allCopyStep (t, out)).2.map
        (fun p => (p.1, heapRead (es.foldl allCopyStep (t, out)).1.heap p.2))
      = out.map (fun p => (p.1, heapRead t.heap p.2))
        ++ es.map (fun p => (p.1, heapRead t.heap p.2))
    ∧ (∀ p ∈ (es.foldl allCopyStep (t, out)).2,
        p.2 ∈ out.map Prod.snd ∨ t.heap.next ≤ p.2) := by
  induction es generalizing t out with
  | nil =>
    refine ⟨rfl, Nat.le_refl _, fun i _ => rfl, hheap, by simp, ?_⟩
    intro p hp
    exact Or.inl (List.mem_map.mpr ⟨p, hp, rfl⟩)
  | cons p rest ih =>
    rw [List.foldl_cons]
    have hstep : allCopyStep (t, out) p
        = ({ heap := { dicts := t.heap.dicts ++ [(t.heap.next, heapRead t.heap p.2)],
                       next := t.heap.next + 1 },
             entries := t.entries },
           out ++ [(p.1, t.heap.next)]) := rfl
    rw [hstep]
    have hents1 : ∀ q ∈ rest, q.2 < t.heap.next + 1 := by
      intro q hq
      have := hents q (by simp [hq])
      omega
    have hheap1 : ∀ q ∈ t.heap.dicts ++ [(t.heap.next, heapRead t.heap p.2)],
        q.1 < t.heap.next + 1 := by
      intro q hq
      rcases List.mem_append.mp hq with h1 | h1
      · have := hheap q h1
        omega
      · have hq1 : q = (t.heap.next, heapRead t.heap p.2) := List.mem_singleton.mp h1
        rw [hq1]
        exact Nat.lt_succ_self _
    have hout1 : ∀ q ∈ out ++ [(p.1, t.heap.next)], q.2 < t.heap.next + 1 := by
      intro q hq
      rcases List.mem_append.mp hq with h1 | h1
      · have := hout q h1
        omega
      · have hq1 : q = (p.1, t.heap.next) := List.mem_singleton.mp h1
        rw [hq1]
        exact Nat.lt_succ_self _
    obtain ⟨ih1, ih2, ih3, ih4, ih5, ih6⟩ :=
      ih { heap := { dicts := t.heap.dicts ++ [(t.heap.next, heapRead t.heap p.2)],
                     next := t.heap.next + 1 },
           entries := t.entries }
        (out ++ [(p.1, t.heap.next)]) hents1 hheap1 hout1
    have hread1 : ∀ j, j < t.heap.next →
        dFind (t.heap.dicts ++ [(t.heap.next, heapRead t.heap p.2)]) j
          = dFind t.heap.dicts j := by
      intro j hj
      apply dFind_append_ne
      intro q hq
      have hq1 : q = (t.heap.next, heapRead t.heap p.2) := List.mem_singleton.mp hq
      rw [hq1]
      intro he
      have he' : t.heap.next = j := he
      omega
    have hfresh : dFind (t.heap.dicts ++ [(t.heap.next, heapRead t.heap p.2)]) t.heap.next
        = some (heapRead t.heap p.2) := by
      apply dFind_append_sing_self
      rw [dFind_eq_none_iff]
      intro hc
      obtain ⟨q, hq, hq2⟩ := List.mem_map.mp hc
      have := hheap q hq
      omega
    refine ⟨ih1, Nat.le_trans (Nat.le_succ _) ih2, ?_, ih4, ?_, ?_⟩
    · intro i hi
      rw [ih3 i (Nat.lt_succ_of_lt hi)]
      exact hread1 i hi
    · refine ih5.trans ?_
      show (out ++ [(p.1, t.heap.next)]).map
          (fun q => (q.1, heapRead
            ⟨t.heap.dicts ++ [(t.heap.next, heapRead t.heap p.2)], t.heap.next + 1⟩ q.2))
        ++ rest.map (fun q => (q.1, heapRead
            ⟨t.heap.dicts ++ [(t.heap.next, heapRead t.heap p.2)], t.heap.next + 1⟩ q.2))
        = out.map (fun q => (q.1, heapRead t.heap q.2))
          ++ (p :: rest).map (fun q => (q.1, heapRead t.heap q.2))
      have e1 : out.map (fun q => (q.1, heapRead
            ⟨t.heap.dicts ++ [(t.heap.next, heapRead t.heap p.2)], t.heap.next + 1⟩ q.2))
          = out.map (fun q => (q.1, heapRead t.heap q.2)) := by
        apply List.map_congr_left
        intro q hq
        have hlt := hout q hq
        congr 1
        show (dFind (t.heap.dicts ++ [(t.heap.next, heapRead t.heap p.2)]) q.2).getD []
          = (dFind t.heap.dicts q.2).getD []
        rw [hread1 q.2 hlt]
      have e2 : rest.map (fun q => (q.1, heapRead
            ⟨t.heap.dicts ++ [(t.heap.next, heapRead t.heap p.2)], t.heap.next + 1⟩ q.2))
          = rest.map (fun q => (q.1, heapRead t.heap q.2)) := by
        apply List.map_congr_left
        intro q hq
        have hlt := hents q (by simp [hq])
        congr 1
        show (dFind (t.heap.dicts ++ [(t.heap.next, heapRead t.heap p.2)]) q.2).getD []
          = (dFind t.heap.dicts q.2).getD []
        rw [hread1 q.2 hlt]
      have e3 : heapRead
            ⟨t.heap.dicts ++ [(t.heap.next, heapRead t.heap p.2)], t.heap.next + 1⟩
            t.heap.next
          = heapRead t.heap p.2 := by
        show (dFind (t.heap.dicts ++ [(t.heap.next, heapRead t.heap p.2)]) t.heap.next).getD []
          = heapRead t.heap p.2
        rw [hfresh]
        rfl
      rw [List.map_append, e1, e2]
      simp only [List.map_cons, List.map_nil, e3]
      rw [List.append_assoc, List.singleton_append]
    · intro q hq
      rcases ih6 q hq with h1 | h1
      · rw [List.map_append] at h1
        rcases List.mem_append.mp h1 with h2 | h2
        · exact Or.inl h2
        · simp only [List.map_cons, List.map_nil, List.mem_singleton] at h2
          exact Or.inr (by omega)
      · exact Or.inr (by have h1' : t.heap.next + 1 ≤ q.2 := h1; omega)

/-- C8: `get_cookies_for_domain` returns (a fresh dict holding) the
cookie map stored under the lower-cased domain, empty when absent;
the `cookies` property returns a snapshot of every stored domain's map;
and both return freshly allocated dict objects, so a caller-side
mutation of any returned dict leaves everything the store observes
unchanged. -/
theorem cookie_accessors_return_copies (s : StoreH) (domain k v : String)
    (hwf : s.WF) :
    heapRead (getCookiesForDomainH s domain).1.heap (getCookiesForDomainH s domain).2
      = (match dFind (storeView s) (pyLower domain) with
          | some m => m
          | none => [])
    ∧ storeView (mutateDict (getCookiesForDomainH s domain).1
        (getCookiesForDomainH s domain).2 k v) = storeView s
    ∧ (cookiesAllH s).2.map (fun p => (p.1, heapRead (cookiesAllH s).1.heap p.2))
        = storeView s
    ∧ ∀ p ∈ (cookiesAllH s).2,
        storeView (mutateDict (cookiesAllH s).1 p.2 k v) = storeView s := by
  have hnone : dFind s.heap.dicts s.heap.next = none := by
    rw [dFind_eq_none_iff]
    intro hc
    obtain ⟨q, hq, hq2⟩ := List.mem_map.mp hc
    have := hwf.2 q hq
    omega
  have hsv : dFind (storeView s) (pyLower domain)
      = (dFind s.entries (pyLower domain)).map (heapRead s.heap) := by
    rw [storeView, dFind_map_heapRead]
  refine ⟨?_, ?_, ?_, ?_⟩
  · show (dFind (s.heap.dicts ++ [(s.heap.next,
        (match dFind s.entries (pyLower domain) with
          | some i => heapRead s.heap i
          | none => []))]) s.heap.next).getD [] = _
    rw [dFind_append_sing_self _ _ _ hnone]
    rw [hsv]
    cases hf : dFind s.entries (pyLower domain) <;> simp [hf]
  · rw [storeView, storeView]
    apply List.map_congr_left
    intro q hq
    have hqlt := hwf.1 q hq
    congr 1
    show (dFind (dInsert (s.heap.dicts ++ [(s.heap.next,
        (match dFind s.entries (pyLower domain) with
          | some i => heapRead s.heap i
          | none => []))]) s.heap.next
        (dInsert (heapRead (getCookiesForDomainH s domain).1.heap s.heap.next) k v))
        q.2).getD []
      = (dFind s.heap.dicts q.2).getD []
    rw [dFind_dInsert_ne _ _ _ _ (by omega : q.2 ≠ s.heap.next)]
    rw [dFind_append_ne]
    intro p hp
    have hp1 : p = (s.heap.next,
        (match dFind s.entries (pyLower domain) with
          | some i => heapRead s.heap i
          | none => [])) := List.mem_singleton.mp hp
    rw [hp1]
    intro he
    have he' : s.heap.next = q.2 := he
    omega
  · obtain ⟨g1, g2, g3, g4, g5, g6⟩ :=
      cookiesAll_fold_spec s.entries s [] hwf.1 hwf.2 (by simp)
    simpa [storeView, cookiesAllH] using g5
  · intro p hp
    obtain ⟨g1, g2, g3, g4, g5, g6⟩ :=
      cookiesAll_fold_spec s.entries s [] hwf.1 hwf.2 (by simp)
    have hple : s.heap.next ≤ p.2 := by
      rcases g6 p hp with h1 | h1
      · simp at h1
      · exact h1
    rw [storeView, storeView]
    show ((cookiesAllH s).1.entries).map
        (fun q => (q.1, heapRead (mutateDict (cookiesAllH s).1 p.2 k v).heap q.2))
      = s.entries.map (fun q => (q.1, heapRead s.heap q.2))
    rw [show ((cookiesAllH s).1.entries) = s.entries from g1]
    apply List.map_congr_left
    intro q hq
    have hqlt := hwf.1 q hq
    congr 1
    show (dFind (dInsert (cookiesAllH s).1.heap.dicts p.2
        (dInsert (heapRead (cookiesAllH s).1.heap p.2) k v)) q.2).getD []
      = (dFind s.heap.dicts q.2).getD []
    rw [dFind_dInsert_ne _ _ _ _ (by omega : q.2 ≠ p.2)]
    show (dFind (List.foldl allCopyStep (s, []) s.entries).1.heap.dicts q.2).getD []
      = (dFind s.heap.dicts q.2).getD []
    rw [g3 q.2 hqlt]

/-- Witness for C8 at a concrete two-domain store. -/
theorem cookie_accessors_return_copies_witness :
    (let s : StoreH :=
      { heap := { dicts := [(0, [("sid", "1")]), (1, [("tok", "2")])], next := 2 },
        entries := [("a.com", 0), ("b.com", 1)] }
     heapRead (getCookiesForDomainH s "A.com").1.heap (getCookiesForDomainH s "A.com").2
       = [("sid", "1")]
     ∧ storeView (mutateDict (getCookiesForDomainH s "A.com").1
         (getCookiesForDomainH s "A.com").2 "sid" "evil") = storeView s) := by
  have h := cookie_accessors_return_copies
    { heap := { dicts := [(0, [("sid", "1")]), (1, [("tok", "2")])], next := 2 },
      entries := [("a.com", 0), ("b.com", 1)] }
    "A.com" "sid" "evil" (by constructor <;> decide)
  exact ⟨by rw [h.1]; decide, h.2.1⟩

end Cronet
